import Mathlib

/-!  Shallow embedding of `src/geopolitics_simple.py` — a news scraper built
from RSS/HTML fetchers, a keyword relevance filter, a URL-deduplicated
article store, a scheduler and a full-text enricher — together with theorems
settling the specification claims.

Modelling conventions: Python strings are `String`, `None`-able values are
`Option`, SQL rows are structures and the `articles` table is a
`List Article` threaded explicitly; `datetime` values are abstract `Nat`
timestamps; network and HTML-library effects (`requests`, `feedparser`,
`BeautifulSoup.find_all`, `urljoin`) enter as explicit parameters, with a
raised exception modelled as `Except.error`.  Python string primitives
(`strip`, `lower`, `in`, slicing, `or`) are re-implemented below over
`List Char` so that every definition evaluates by kernel reduction. -/

namespace Geo

/-- The whitespace stripped by Python `str.strip()`. -/
def isPyWs (c : Char) : Bool :=
  c = ' ' || c = '\t' || c = '\n' || c = '\r' || c = '\x0b' || c = '\x0c'

/-- Python `s.strip()`. -/
def pyStrip (s : String) : String :=
  (((s.toList.dropWhile isPyWs).reverse.dropWhile isPyWs).reverse).asString

/-- Python `s.lower()` (ASCII case mapping, which covers the configured
keywords and source names). -/
def pyLower (s : String) : String := (s.toList.map Char.toLower).asString

/-- Python `needle in hay` on strings: substring containment. -/
def pyContains (hay needle : String) : Bool := decide (needle.toList <:+: hay.toList)

/-- Python `s[:n]` on strings. -/
def pyTake (n : Nat) (s : String) : String := (s.toList.take n).asString

/-- Python `d.get(k) or ""` for an optional string. -/
def orEmpty (o : Option String) : String := o.getD ""

/-- Python `a or b` on strings (the empty string is falsy). -/
def pyOrS (a b : String) : String := if a = "" then b else a

/-- A candidate item dict as built by the fetchers:
`{"title": …, "url": …, "summary": …, "published": …}`.  A missing key reads
back as `None` via `dict.get`, hence the `none` defaults. -/
structure RawItem where
  title : Option String
  url : Option String
  summary : Option String := none
  published : Option Nat := none
deriving Repr, DecidableEq

/-- A persisted `articles` row (the `Article` ORM class).  The integer `id`
is assigned by the database and no claim depends on it, so it is omitted;
`fetched_at` is the `datetime.utcnow()` at insert time, supplied as `now`. -/
structure Article where
  source : String
  title : String
  url : String
  summary : String
  published : Option Nat
  fetched_at : Nat
deriving Repr, DecidableEq

/-- The default `KEYWORDS` configuration: the built-in comma-separated list,
each entry stripped and lowercased at load. -/
def KEYWORDS_default : List String :=
  ["russia", "ukraine", "china", "taiwan", "nato", "israel", "palestine",
   "iran", "afghanistan", "india", "modi", "us", "united states", "syrian",
   "korea", "vladimir", "zelensky"]

/-- The `Article(...)` constructor call of `store_items` (src lines 165-171):
the new row built from a candidate item, each field truncated to the column
bound (`source_name[:255]`, `title[:1024]`, `url[:2048]`, `summary[:4000]`),
with `fetched_at` the current time `now`. -/
def mkArticle (source_name : String) (now : Nat) (it : RawItem) : Article :=
  { source := pyTake 255 source_name
    title := pyTake 1024 (pyStrip (orEmpty it.title))
    url := pyTake 2048 (orEmpty it.url)
    summary := pyTake 4000 (orEmpty it.summary)
    published := it.published
    fetched_at := now }

/-- One iteration of the `for it in items:` loop body of `store_items`
(src lines 153-176), acting on the current articles table `s`: sanitise and
validate, apply the keyword/allowlist relevance check, skip on an existing
row with the same url, otherwise insert a new truncated row.  A
`session.commit()` whose truncated url collides with the `uq_url` unique
constraint raises, and the per-item `except: session.rollback()` turns that
into "table unchanged, not counted".  Returns the table afterwards and
whether `added` was incremented. -/
def upsertOne (keywords : List String) (source_name : String) (now : Nat)
    (s : List Article) (it : RawItem) : List Article × Bool :=
  let title := pyStrip (orEmpty it.title)
  let url := orEmpty it.url
  if url = "" || title = "" then (s, false)
  else
    let low := pyLower (title ++ " " ++ url)
    if !(keywords.any fun k => pyContains low k) &&
        !(pyContains (pyLower source_name) "al jazeera") then (s, false)
    else if s.any fun a => a.url == url then (s, false)
    else
      let art : Article := mkArticle source_name now it
      if s.any fun a => a.url == art.url then (s, false)
      else (s ++ [art], true)

/-- `store_items(items, source_name)` (src lines 149-179): fold the loop body
over the candidate items, counting `added`. -/
def store_items (keywords : List String) (source_name : String) (now : Nat) :
    List Article → List RawItem → List Article × Nat
  | s, [] => (s, 0)
  | s, it :: rest =>
    let r := upsertOne keywords source_name now s it
    let r2 := store_items keywords source_name now r.1 rest
    (r2.1, (if r.2 then 1 else 0) + r2.2)

/-- The `e.published_parsed` value of a feedparser entry (a
`time.struct_time`, always truthy when present), abstracted to the outcome of
`datetime(*t[:6])`: `dt?` is the constructed timestamp, or `none` when the
constructor raises (the surrounding `except` then yields `published = None`). -/
structure PTime where
  dt? : Option Nat
deriving Repr, DecidableEq

/-- A feedparser entry, as read by `e.get(...)` / `getattr`. -/
structure Entry where
  title : Option String
  link : Option String
  summary : Option String := none
  description : Option String := none
  published_parsed : Option PTime := none
deriving Repr, DecidableEq

/-- A parsed feed: `feed.entries`, possibly `None` (`feed.entries or []`). -/
structure Feed where
  entries : Option (List Entry)
deriving Repr, DecidableEq

/-- `parse_rss(url)` (src lines 89-103), applied to the already-parsed feed:
map the first 60 entries to candidate dicts; `published` is `None` when
`published_parsed` is absent or the `datetime(*…)` conversion raises. -/
def parse_rss (feed : Feed) : List RawItem :=
  ((feed.entries.getD []).take 60).map fun e =>
    { title := e.title
      url := e.link
      summary := some (pyOrS (orEmpty e.summary) (pyOrS (orEmpty e.description) ""))
      published :=
        match e.published_parsed with
        | none => none
        | some t => t.dt? }

/-- An `<a href=…>` element as returned by `soup.find_all("a", href=True)`:
its rendered text (`a.get_text()`, `None`-able) and its `href` attribute. -/
structure Link where
  text : Option String
  href : String
deriving Repr, DecidableEq

/-- The first loop of `extract_links_with_keywords` (src lines 115-120),
building `found`; `urljoin` is the external URL resolver. -/
def linksFound (urljoin : String → String → String) (base_url : String)
    (keywords : List String) (links : List Link) : List RawItem :=
  links.foldl (fun found a =>
    let text := pyStrip (orEmpty a.text)
    let href := urljoin base_url a.href
    let combined := pyLower (text ++ " " ++ href)
    if keywords.any fun k => pyContains combined k then
      found ++ [{ title := some (pyOrS text href), url := some href, summary := some "" }]
    else found) []

/-- The dedup loop of `extract_links_with_keywords` (src lines 122-127):
keep the first occurrence of each url, tracking the `seen` set. -/
def dedupByUrl : List RawItem → List String → List RawItem
  | [], _ => []
  | it :: rest, seen =>
    if seen.contains (orEmpty it.url) then dedupByUrl rest seen
    else it :: dedupByUrl rest (orEmpty it.url :: seen)

/-- `extract_links_with_keywords(html, base_url, keywords)` (src lines
112-128), applied to the soup's list of `<a href>` elements. -/
def extract_links_with_keywords (urljoin : String → String → String)
    (links : List Link) (base_url : String) (keywords : List String) : List RawItem :=
  (dedupByUrl (linksFound urljoin base_url keywords links) []).take 80

/-- The effectful environment of one ingestion pass: what
`feedparser.parse(url)` and `fetch_html(url)` + `BeautifulSoup` deliver for
each url — a parsed document, or a raised exception (`Except.error`). -/
structure Net where
  rss : String → Except String Feed
  html : String → Except String (List Link)

/-- `scrape_source(source)` (src lines 131-141): dispatch on the source
`type`; any exception raised while fetching or parsing is caught, logged and
turned into `[]`. -/
def scrape_source (net : Net) (urljoin : String → String → String)
    (keywords : List String) (src_type src_url : String) : List RawItem :=
  if src_type = "rss" then
    match net.rss src_url with
    | .ok feed => parse_rss feed
    | .error _ => []
  else
    match net.html src_url with
    | .ok links => extract_links_with_keywords urljoin links src_url keywords
    | .error _ => []

/-- A `sources` row (the `Source` ORM class, id omitted). -/
structure Source where
  name : String
  type : String
  url : String
  enabled : Bool
deriving Repr, DecidableEq

/-- The `for src in sources:` loop of `scrape_all` (src lines 188-192) over
the already-filtered enabled sources, threading the articles table and
summing the per-source insert counts. -/
def scrape_list (net : Net) (urljoin : String → String → String)
    (keywords : List String) (now : Nat) :
    List Article → List Source → List Article × Nat
  | s, [] => (s, 0)
  | s, src :: rest =>
    let items := scrape_source net urljoin keywords src.type src.url
    let r := store_items keywords src.name now s items
    let r2 := scrape_list net urljoin keywords now r.1 rest
    (r2.1, r.2 + r2.2)

/-- `scrape_all()` (src lines 182-194): query the enabled sources, scrape and
store each in turn, and return the total number of newly inserted articles. -/
def scrape_all (net : Net) (urljoin : String → String → String)
    (keywords : List String) (now : Nat) (sources : List Source)
    (s : List Article) : List Article × Nat :=
  scrape_list net urljoin keywords now s (sources.filter (·.enabled))

/-- A `<meta>` element and its `content` attribute (`None`-able). -/
structure MetaTag where
  content : Option String
deriving Repr, DecidableEq

/-- A region of a parsed page (`<article>`, `<main>`, or the whole soup): the
stripped texts `p.get_text(strip=True)` of its `<p>` descendants in document
order (entries may be empty strings). -/
structure Region where
  paras : List String
deriving Repr, DecidableEq

/-- A parsed page, as inspected by the enricher. -/
structure Page where
  articleEl : Option Region
  mainEl : Option Region
  whole : Region
  metaDescription : Option MetaTag
  metaOgDescription : Option MetaTag
deriving Repr, DecidableEq

/-- The paragraph-collecting loop of `fetch_full_text_and_summary`: append
each non-empty text to `acc`, stopping once `max_paragraphs` have been
collected. -/
def collectParas (max_paragraphs : Nat) : List String → List String → List String
  | acc, [] => acc
  | acc, t :: rest =>
    let acc := if t ≠ "" then acc ++ [t] else acc
    if max_paragraphs ≤ acc.length then acc
    else collectParas max_paragraphs acc rest

/-- Python `"\n\n".join(paras)`. -/
def joinBlank : List String → String
  | [] => ""
  | [x] => x
  | x :: rest => x ++ "\n\n" ++ joinBlank rest

/-- `fetch_full_text_and_summary(url, max_paragraphs=3)` (src lines 200-233);
the fetch-and-parse outcome is the `page` argument, `Except.error` standing
for any raised exception (caught, logged, `None` returned). -/
def fetch_full_text_and_summary (page : Except String Page)
    (max_paragraphs : Nat := 3) : Option String :=
  match page with
  | .error _ => none
  | .ok soup =>
    let paras : List String :=
      match soup.articleEl with
      | some ar => collectParas max_paragraphs [] ar.paras
      | none => []
    let paras : List String :=
      if paras.isEmpty then
        let m :=
          match soup.mainEl with
          | some m => m
          | none => soup.whole
        collectParas max_paragraphs [] m.paras
      else paras
    let summary := pyStrip (joinBlank paras)
    let summary :=
      if summary = "" then
        let desc :=
          match soup.metaDescription with
          | some d => some d
          | none => soup.metaOgDescription
        match desc with
        | some d =>
          match d.content with
          | some c => if c ≠ "" then pyStrip c else summary
          | none => summary
        | none => summary
      else summary
    if summary = "" then none else some summary

/-- The summary-updating core of the `/article/<id>/fetch_full` route (src
lines 275-287): deep-fetch with `max_paragraphs=4`; on a non-`None` summary
overwrite `summary` and refresh `fetched_at`, otherwise leave the row
unchanged. -/
def article_fetch_full (page : Except String Page) (now : Nat)
    (art : Article) : Article :=
  match fetch_full_text_and_summary page 4 with
  | some summary => { art with summary := summary, fetched_at := now }
  | none => art

/-- The SQL ordering `ORDER BY published DESC NULLS LAST, fetched_at DESC`:
`rowLe a b` holds when `a` may be listed at or before `b`. -/
def rowLe (a b : Article) : Bool :=
  match a.published, b.published with
  | some x, some y => if x = y then Nat.ble b.fetched_at a.fetched_at else Nat.blt y x
  | some _, none => true
  | none, some _ => false
  | none, none => Nat.ble b.fetched_at a.fetched_at

/-- `rowLe` as a relation, for sorting with `List.insertionSort`. -/
def rowLeP (a b : Article) : Prop := rowLe a b = true

instance : DecidableRel rowLeP :=
  fun a b => inferInstanceAs (Decidable (rowLe a b = true))

/-- The article query of the `index` route (src lines 244-260): order all
rows, take the display limit of 300, then — only when the stripped,
lowercased query `q` is non-empty — keep the rows of that window whose title
or summary contains it.  (SQL leaves the order of full ties unspecified; the
embedding commits to the sort produced by `List.insertionSort`, which
refines the same `ORDER BY` keys.) -/
def index_rows (q : String) (s : List Article) : List Article :=
  let qn := pyLower (pyStrip q)
  let rows := (List.insertionSort rowLeP s).take 300
  if qn ≠ "" then
    rows.filter fun r => pyContains (pyLower r.title) qn || pyContains (pyLower r.summary) qn
  else rows

instance : IsTotal Article rowLeP := by
  constructor
  intro a b
  simp only [rowLeP, rowLe]
  rcases a.published with _ | x <;> rcases b.published with _ | y <;>
    simp [Nat.ble_eq, Nat.blt_eq] <;> (try split_ifs) <;> omega

instance : IsTrans Article rowLeP := by
  constructor
  intro a b c
  simp only [rowLeP, rowLe]
  rcases a.published with _ | x <;> rcases b.published with _ | y <;>
    rcases c.published with _ | z <;>
    simp [Nat.ble_eq, Nat.blt_eq] <;> (try split_ifs) <;> omega

/-- Case analysis of one upsert: either the table is unchanged and nothing is
counted, or the freshly built row is appended and counted, its url then
absent from the prior table. -/
lemma upsertOne_skip_or_insert (k : List String) (sn : String) (now : Nat)
    (s : List Article) (it : RawItem) :
    upsertOne k sn now s it = (s, false) ∨
      (upsertOne k sn now s it = (s ++ [mkArticle sn now it], true) ∧
        ∀ a ∈ s, a.url ≠ orEmpty it.url ∧ a.url ≠ (mkArticle sn now it).url) := by
  simp only [upsertOne]
  split_ifs with h1 h2 h3 h4
  · exact Or.inl rfl
  · exact Or.inl rfl
  · exact Or.inl rfl
  · exact Or.inl rfl
  · refine Or.inr ⟨rfl, ?_⟩
    intro a ha
    constructor
    · intro hEq
      exact h3 (List.any_eq_true.mpr ⟨a, ha, by simp [hEq]⟩)
    · intro hEq
      exact h4 (List.any_eq_true.mpr ⟨a, ha, by simp [hEq]⟩)

/-- One upsert inserts (and counts) exactly when the item passes validation
and the relevance filter, and neither its url nor its truncated url is
already present in the table. -/
lemma upsertOne_inserted_iff (k : List String) (sn : String) (now : Nat)
    (s : List Article) (it : RawItem) :
    (upsertOne k sn now s it).2 = true ↔
      (pyStrip (orEmpty it.title) ≠ "" ∧ orEmpty it.url ≠ "" ∧
        ((k.any fun kw =>
            pyContains (pyLower (pyStrip (orEmpty it.title) ++ " " ++ orEmpty it.url)) kw) = true ∨
          pyContains (pyLower sn) "al jazeera" = true) ∧
        (∀ a ∈ s, a.url ≠ orEmpty it.url) ∧
        (∀ a ∈ s, a.url ≠ pyTake 2048 (orEmpty it.url))) := by
  simp only [upsertOne]
  split_ifs with h1 h2 h3 h4
  · refine iff_of_false (by simp) ?_
    simp only [Bool.or_eq_true, decide_eq_true_eq] at h1
    rintro ⟨ht, hu, -⟩
    rcases h1 with h | h
    exacts [hu h, ht h]
  · refine iff_of_false (by simp) ?_
    simp only [Bool.and_eq_true, Bool.not_eq_true'] at h2
    rintro ⟨-, -, hor, -⟩
    rcases hor with h | h
    · rw [h2.1] at h
      exact Bool.false_ne_true h
    · rw [h2.2] at h
      exact Bool.false_ne_true h
  · refine iff_of_false (by simp) ?_
    rw [List.any_eq_true] at h3
    rcases h3 with ⟨a, ha, hbeq⟩
    rintro ⟨-, -, -, hnone, -⟩
    exact hnone a ha (by simpa using hbeq)
  · refine iff_of_false (by simp) ?_
    rw [List.any_eq_true] at h4
    rcases h4 with ⟨a, ha, hbeq⟩
    rintro ⟨-, -, -, -, hnone⟩
    refine hnone a ha ?_
    simpa [mkArticle] using hbeq
  · simp only [Bool.or_eq_true, decide_eq_true_eq, not_or] at h1
    simp only [Bool.and_eq_true, Bool.not_eq_true', not_and] at h2
    rw [List.any_eq_true] at h3 h4
    push_neg at h3 h4
    refine iff_of_true rfl ⟨h1.2, h1.1, ?_, ?_, ?_⟩
    · rcases hany : (k.any fun kw =>
          pyContains (pyLower (pyStrip (orEmpty it.title) ++ " " ++ orEmpty it.url)) kw) with _ | _
      · have haj := h2 hany
        rcases hv : pyContains (pyLower sn) "al jazeera" with _ | _
        · exact absurd hv haj
        · exact Or.inr rfl
      · exact Or.inl rfl
    · intro a ha
      have := h3 a ha
      simpa using this
    · intro a ha
      have := h4 a ha
      simpa [mkArticle] using this

/-- C2: a candidate item is accepted for storage by `store_items` iff its
trimmed title and its url are both non-empty AND (the lowercased
space-joined combination of the trimmed title and the url contains at least
one configured keyword OR the lowercased source name contains the exempt
marker "al jazeera"); in particular, title "Russia strikes again" with url
"https://x.test/a" is accepted under keyword "russia", and title
"Local bakery opens" with url "https://x.test/b" from a non-exempt source is
rejected under the default keyword configuration. -/
theorem C2_relevance_filter :
    (∀ (keywords : List String) (source_name : String) (now : Nat) (it : RawItem),
      (store_items keywords source_name now [] [it]).2 = 1 ↔
        (pyStrip (orEmpty it.title) ≠ "" ∧ orEmpty it.url ≠ "" ∧
          ((keywords.any fun kw =>
              pyContains (pyLower (pyStrip (orEmpty it.title) ++ " " ++ orEmpty it.url)) kw) = true ∨
            pyContains (pyLower source_name) "al jazeera" = true))) ∧
    (store_items ["russia"] "BBC World" 0 []
        [{ title := some "Russia strikes again", url := some "https://x.test/a" }]).2 = 1 ∧
    (store_items KEYWORDS_default "BBC World" 0 []
        [{ title := some "Local bakery opens", url := some "https://x.test/b" }]).2 = 0 := by
  refine ⟨?_, by decide, by decide⟩
  intro keywords source_name now it
  have h := upsertOne_inserted_iff keywords source_name now [] it
  simp only [List.not_mem_nil, false_implies, implies_true, and_true] at h
  simp only [store_items]
  constructor
  · intro hcount
    apply h.mp
    by_contra hfalse
    rw [Bool.not_eq_true] at hfalse
    rw [hfalse] at hcount
    simp at hcount
  · intro hr
    have hins := h.mpr hr
    simp [hins]

/-- C5 counterexample: an item whose url is the whitespace-only string " "
(so empty after trimming) is, contrary to the claim, not rejected:
`store_items` never trims the url, and inserts the row. -/
theorem C5_counterexample :
    store_items ["russia"] "Test" 0 []
        [{ title := some "russia", url := some " " }] =
      ([Article.mk "Test" "russia" " " "" none 0], 1) := by decide

/-- C5 (amended): `store_items` trims the title but not the url; its
validation rejects (skips) an item exactly when the trimmed title is empty
or the url is missing or empty (untrimmed), and on overflow it truncates
rather than rejects: any inserted row carries title cut to 1024 characters,
url to 2048, summary to 4000 and source to 255. -/
theorem C5_validation_truncation :
    ∀ (keywords : List String) (source_name : String) (now : Nat)
      (s : List Article) (it : RawItem),
      ((pyStrip (orEmpty it.title) = "" ∨ orEmpty it.url = "") →
        upsertOne keywords source_name now s it = (s, false)) ∧
      ((upsertOne keywords source_name now s it).1 ≠ s →
        (upsertOne keywords source_name now s it).1 =
          s ++ [Article.mk (pyTake 255 source_name)
            (pyTake 1024 (pyStrip (orEmpty it.title)))
            (pyTake 2048 (orEmpty it.url))
            (pyTake 4000 (orEmpty it.summary))
            it.published now]) := by
  intro keywords source_name now s it
  constructor
  · intro hrej
    simp only [upsertOne]
    rw [if_pos]
    simp only [Bool.or_eq_true, decide_eq_true_eq]
    tauto
  · intro hchanged
    rcases upsertOne_skip_or_insert keywords source_name now s it with h | ⟨h, _⟩
    · exact absurd (by rw [h]) hchanged
    · rw [h]
      rfl

/-- Witness for C5 (amended): a whitespace-only title is rejected, and an
accepted item is stored as the truncated row. -/
theorem C5_validation_truncation_witness :
    upsertOne ["russia"] "Test" 0 [] { title := some " ", url := some "u" } = ([], false) ∧
    (upsertOne ["russia"] "Test" 0 []
        { title := some "russia", url := some "https://a" }).1 =
      [] ++ [Article.mk "Test" "russia" "https://a" "" none 0] := by
  constructor
  · exact (C5_validation_truncation ["russia"] "Test" 0 [] _).1 (Or.inl (by decide))
  · exact (C5_validation_truncation ["russia"] "Test" 0 [] _).2 (by decide)

/-- Once this holds, an upsert of the item can never change the table again:
the item fails validation or the relevance filter, or the table already
holds its url (the lookup skip) or its truncated url (the `uq_url`
constraint). -/
def Blocked (keywords : List String) (source_name : String)
    (s : List Article) (it : RawItem) : Prop :=
  (orEmpty it.url = "" ∨ pyStrip (orEmpty it.title) = "") ∨
    ((keywords.any fun kw =>
        pyContains (pyLower (pyStrip (orEmpty it.title) ++ " " ++ orEmpty it.url)) kw) = false ∧
      pyContains (pyLower source_name) "al jazeera" = false) ∨
    (∃ a ∈ s, a.url = orEmpty it.url) ∨
    (∃ a ∈ s, a.url = pyTake 2048 (orEmpty it.url))

lemma Blocked.mono {k : List String} {sn : String} {s t : List Article}
    {it : RawItem} (hb : Blocked k sn s it) : Blocked k sn (s ++ t) it := by
  rcases hb with h | h | ⟨a, ha, h⟩ | ⟨a, ha, h⟩
  · exact Or.inl h
  · exact Or.inr (Or.inl h)
  · exact Or.inr (Or.inr (Or.inl ⟨a, List.mem_append_left t ha, h⟩))
  · exact Or.inr (Or.inr (Or.inr ⟨a, List.mem_append_left t ha, h⟩))

lemma upsertOne_of_blocked {k : List String} {sn : String} {s : List Article}
    {it : RawItem} (now : Nat) (hb : Blocked k sn s it) :
    upsertOne k sn now s it = (s, false) := by
  rcases upsertOne_skip_or_insert k sn now s it with h | ⟨h, hfresh⟩
  · exact h
  · exfalso
    have h2 := (upsertOne_inserted_iff k sn now s it).mp (by rw [h])
    rcases hb with hval | hfil | ⟨a, ha, he⟩ | ⟨a, ha, he⟩
    · rcases hval with h' | h'
      · exact h2.2.1 h'
      · exact h2.1 h'
    · rcases h2.2.2.1 with ha | ha
      · rw [hfil.1] at ha
        exact Bool.false_ne_true ha
      · rw [hfil.2] at ha
        exact Bool.false_ne_true ha
    · exact h2.2.2.2.1 a ha he
    · exact h2.2.2.2.2 a ha he

lemma blocked_upsertOne (k : List String) (sn : String) (now : Nat)
    (s : List Article) (it : RawItem) :
    Blocked k sn ((upsertOne k sn now s it).1) it := by
  simp only [upsertOne]
  split_ifs with h1 h2 h3 h4
  · simp only [Bool.or_eq_true, decide_eq_true_eq] at h1
    exact Or.inl h1
  · simp only [Bool.and_eq_true, Bool.not_eq_true'] at h2
    exact Or.inr (Or.inl h2)
  · rw [List.any_eq_true] at h3
    rcases h3 with ⟨a, ha, hbeq⟩
    exact Or.inr (Or.inr (Or.inl ⟨a, ha, by simpa using hbeq⟩))
  · rw [List.any_eq_true] at h4
    rcases h4 with ⟨a, ha, hbeq⟩
    exact Or.inr (Or.inr (Or.inr ⟨a, ha, by simpa [mkArticle] using hbeq⟩))
  · refine Or.inr (Or.inr (Or.inr ⟨mkArticle sn now it, ?_, rfl⟩))
    simp [mkArticle]

lemma upsertOne_extends (k : List String) (sn : String) (now : Nat)
    (s : List Article) (it : RawItem) :
    ∃ t, (upsertOne k sn now s it).1 = s ++ t := by
  rcases upsertOne_skip_or_insert k sn now s it with h | ⟨h, -⟩
  · exact ⟨[], by simp [h]⟩
  · exact ⟨[mkArticle sn now it], by rw [h]⟩

lemma store_items_extends (k : List String) (sn : String) (now : Nat)
    (s : List Article) (l : List RawItem) :
    ∃ t, (store_items k sn now s l).1 = s ++ t := by
  induction l generalizing s with
  | nil => exact ⟨[], by simp [store_items]⟩
  | cons it rest ih =>
    rcases upsertOne_extends k sn now s it with ⟨t1, h1⟩
    rcases ih ((upsertOne k sn now s it).1) with ⟨t2, h2⟩
    refine ⟨t1 ++ t2, ?_⟩
    simp only [store_items]
    rw [h2, h1, List.append_assoc]

lemma blocked_store_items (k : List String) (sn : String) (now : Nat)
    (s : List Article) (l : List RawItem) :
    ∀ it ∈ l, Blocked k sn ((store_items k sn now s l).1) it := by
  induction l generalizing s with
  | nil => intro it h; exact absurd h (List.not_mem_nil it)
  | cons hd rest ih =>
    intro it hmem
    rcases List.mem_cons.mp hmem with rfl | hmem
    · have hb := blocked_upsertOne k sn now s it
      rcases store_items_extends k sn now ((upsertOne k sn now s it).1) rest with ⟨t, ht⟩
      simp only [store_items, ht]
      exact hb.mono
    · simp only [store_items]
      exact ih ((upsertOne k sn now s hd).1) it hmem

lemma store_items_of_blocked {k : List String} {sn : String} (now : Nat)
    {s : List Article} {l : List RawItem}
    (hb : ∀ it ∈ l, Blocked k sn s it) :
    store_items k sn now s l = (s, 0) := by
  induction l with
  | nil => rfl
  | cons hd rest ih =>
    have h1 := upsertOne_of_blocked now (hb hd (List.mem_cons_self hd rest))
    simp only [store_items, h1]
    rw [ih fun it h => hb it (List.mem_cons_of_mem hd h)]
    simp

/-- C1: across `store_items` upserts the stored urls stay pairwise distinct;
an upsert whose url already exists in the table leaves the table — hence
every field of the existing row — unchanged and is not counted; and once an
upsert has been counted as inserted, immediately repeating it returns
inserted = false with the table (in particular the stored row's summary from
the first call) unchanged. -/
theorem C1_url_unique_upsert :
    ∀ (keywords : List String) (source_name : String) (now now2 : Nat)
      (s : List Article) (it : RawItem),
      ((s.map Article.url).Nodup →
        (((upsertOne keywords source_name now s it).1).map Article.url).Nodup) ∧
      ((∃ a ∈ s, a.url = orEmpty it.url) →
        upsertOne keywords source_name now s it = (s, false)) ∧
      ((upsertOne keywords source_name now s it).2 = true →
        upsertOne keywords source_name now2
            (upsertOne keywords source_name now s it).1 it =
          ((upsertOne keywords source_name now s it).1, false) ∧
        ∃ a ∈ (upsertOne keywords source_name now s it).1,
          a.url = pyTake 2048 (orEmpty it.url) ∧
          a.summary = pyTake 4000 (orEmpty it.summary)) := by
  intro keywords source_name now now2 s it
  refine ⟨?_, ?_, ?_⟩
  · intro hnd
    rcases upsertOne_skip_or_insert keywords source_name now s it with h | ⟨h, hfresh⟩
    · rw [h]
      exact hnd
    · rw [h]
      rw [List.map_append, List.nodup_append]
      refine ⟨hnd, List.nodup_singleton _, ?_⟩
      intro u hu hu1
      rcases List.mem_map.mp hu with ⟨a, ha, rfl⟩
      rcases List.mem_singleton.mp (by simpa using hu1) with h'
      exact (hfresh a ha).2 h'
  · intro hex
    exact upsertOne_of_blocked now (Or.inr (Or.inr (Or.inl hex)))
  · intro hins
    rcases upsertOne_skip_or_insert keywords source_name now s it with h | ⟨h, hfresh⟩
    · rw [h] at hins
      exact absurd hins (by simp)
    · have hmem : mkArticle source_name now it ∈ (upsertOne keywords source_name now s it).1 := by
        rw [h]
        simp
      refine ⟨?_, mkArticle source_name now it, hmem, rfl, rfl⟩
      exact upsertOne_of_blocked now2
        (Or.inr (Or.inr (Or.inr ⟨mkArticle source_name now it, hmem, rfl⟩)))

/-- Witness for C1: on a store holding the url, the upsert is a no-op; an
accepted fresh item is inserted and the immediate repeat is not. -/
theorem C1_url_unique_upsert_witness :
    (upsertOne ["russia"] "Src" 1
        [Article.mk "Src" "russia one" "https://x.test/a" "s0" none 0]
        { title := some "russia two", url := some "https://x.test/a" } =
      ([Article.mk "Src" "russia one" "https://x.test/a" "s0" none 0], false)) ∧
    (upsertOne ["russia"] "Src" 2
        (upsertOne ["russia"] "Src" 1 []
          { title := some "russia", url := some "https://x.test/a", summary := some "s1" }).1
        { title := some "russia", url := some "https://x.test/a", summary := some "s1" } =
      ((upsertOne ["russia"] "Src" 1 []
          { title := some "russia", url := some "https://x.test/a", summary := some "s1" }).1, false)) := by
  constructor
  · exact (C1_url_unique_upsert ["russia"] "Src" 1 1 _ _).2.1
      ⟨Article.mk "Src" "russia one" "https://x.test/a" "s0" none 0, by simp, rfl⟩
  · exact ((C1_url_unique_upsert ["russia"] "Src" 1 2 [] _).2.2 (by decide)).1

lemma scrape_list_append (net : Net) (uj : String → String → String)
    (k : List String) (now : Nat) (s : List Article) (l1 l2 : List Source) :
    scrape_list net uj k now s (l1 ++ l2) =
      ((scrape_list net uj k now (scrape_list net uj k now s l1).1 l2).1,
        (scrape_list net uj k now s l1).2 +
          (scrape_list net uj k now (scrape_list net uj k now s l1).1 l2).2) := by
  induction l1 generalizing s with
  | nil => simp [scrape_list]
  | cons src rest ih =>
    simp only [List.cons_append, scrape_list]
    rw [show rest.append l2 = rest ++ l2 from rfl, ih]
    simp [Nat.add_assoc]

/-- The fetch or parse of this source raises an exception in the body of
`scrape_source`. -/
def fetchFails (net : Net) (src : Source) : Prop :=
  if src.type = "rss" then ∃ e, net.rss src.url = Except.error e
  else ∃ e, net.html src.url = Except.error e

lemma scrape_source_of_fails {net : Net} {src : Source}
    (uj : String → String → String) (k : List String)
    (hf : fetchFails net src) :
    scrape_source net uj k src.type src.url = [] := by
  unfold fetchFails at hf
  unfold scrape_source
  split_ifs with h
  · rw [if_pos h] at hf
    rcases hf with ⟨e, he⟩
    rw [he]
  · rw [if_neg h] at hf
    rcases hf with ⟨e, he⟩
    rw [he]

/-- C3: any exception while fetching or parsing one source makes
`scrape_source` return the empty list instead of propagating, and
`scrape_all` over a source list containing the failing source behaves
exactly as over the list without it: every other enabled source is still
processed, the failing source contributes zero, and the returned total is
the sum of the per-source insert counts. -/
theorem C3_source_failure_isolated :
    ∀ (net : Net) (urljoin : String → String → String) (keywords : List String)
      (now : Nat) (s : List Article) (pre post : List Source) (bad : Source),
      fetchFails net bad →
        scrape_source net urljoin keywords bad.type bad.url = [] ∧
        scrape_all net urljoin keywords now (pre ++ bad :: post) s =
          scrape_all net urljoin keywords now (pre ++ post) s := by
  intro net urljoin keywords now s pre post bad hf
  have hempty := scrape_source_of_fails urljoin keywords hf
  refine ⟨hempty, ?_⟩
  simp only [scrape_all, List.filter_append, List.filter_cons]
  rcases hb : bad.enabled with _ | _
  · simp
  · simp only [if_pos rfl]
    rw [scrape_list_append, scrape_list_append]
    simp only [scrape_list, hempty]
    rw [show ∀ s2 : List Article, store_items keywords bad.name now s2 [] = (s2, 0)
      from fun s2 => rfl]
    simp

/-- A concrete network environment for witnesses: one good feed url, every
other fetch raises. -/
def netW : Net :=
  { rss := fun u =>
      if u = "https://good.test/rss" then
        Except.ok { entries := some [{ title := some "Russia report", link := some "https://good.test/a1" }] }
      else Except.error "boom"
    html := fun _ => Except.error "boom" }

def srcGood : Source :=
  { name := "Good", type := "rss", url := "https://good.test/rss", enabled := true }

def srcBad : Source :=
  { name := "Bad", type := "rss", url := "https://bad.test/rss", enabled := true }

/-- Witness for C3: with one healthy feed and one raising feed, the raising
source yields no items and deleting it from the pass changes nothing. -/
theorem C3_source_failure_isolated_witness :
    scrape_source netW (fun _ h => h) ["russia"] srcBad.type srcBad.url = [] ∧
    scrape_all netW (fun _ h => h) ["russia"] 0 [srcGood, srcBad] [] =
      scrape_all netW (fun _ h => h) ["russia"] 0 [srcGood] [] := by
  have hf : fetchFails netW srcBad := by
    unfold fetchFails
    have hty : srcBad.type = "rss" := rfl
    rw [if_pos hty]
    exact ⟨"boom", by simp [netW, srcBad]⟩
  exact C3_source_failure_isolated netW (fun _ h => h) ["russia"] 0 [] [srcGood] [] srcBad hf

lemma scrape_list_extends (net : Net) (uj : String → String → String)
    (k : List String) (now : Nat) (s : List Article) (srcs : List Source) :
    ∃ t, (scrape_list net uj k now s srcs).1 = s ++ t := by
  induction srcs generalizing s with
  | nil => exact ⟨[], by simp [scrape_list]⟩
  | cons src rest ih =>
    rcases store_items_extends k src.name now s
        (scrape_source net uj k src.type src.url) with ⟨t1, h1⟩
    rcases ih ((store_items k src.name now s
        (scrape_source net uj k src.type src.url)).1) with ⟨t2, h2⟩
    refine ⟨t1 ++ t2, ?_⟩
    simp only [scrape_list]
    rw [h2, h1, List.append_assoc]

lemma blocked_scrape_list (net : Net) (uj : String → String → String)
    (k : List String) (now : Nat) (s : List Article) (srcs : List Source) :
    ∀ src ∈ srcs, ∀ it ∈ scrape_source net uj k src.type src.url,
      Blocked k src.name ((scrape_list net uj k now s srcs).1) it := by
  induction srcs generalizing s with
  | nil =>
    intro src h
    exact absurd h (List.not_mem_nil src)
  | cons hd rest ih =>
    intro src hmem it hit
    rcases List.mem_cons.mp hmem with rfl | hmem
    · have hb := blocked_store_items k src.name now s
        (scrape_source net uj k src.type src.url) it hit
      rcases scrape_list_extends net uj k now
          ((store_items k src.name now s (scrape_source net uj k src.type src.url)).1)
          rest with ⟨t, ht⟩
      simp only [scrape_list, ht]
      exact hb.mono
    · simp only [scrape_list]
      exact ih _ src hmem it hit

lemma scrape_list_of_blocked {net : Net} {uj : String → String → String}
    {k : List String} (now : Nat) {s : List Article} {srcs : List Source}
    (hb : ∀ src ∈ srcs, ∀ it ∈ scrape_source net uj k src.type src.url,
      Blocked k src.name s it) :
    scrape_list net uj k now s srcs = (s, 0) := by
  induction srcs with
  | nil => rfl
  | cons hd rest ih =>
    have h1 := store_items_of_blocked now (hb hd (List.mem_cons_self hd rest))
    simp only [scrape_list, h1]
    rw [ih fun src h => hb src (List.mem_cons_of_mem hd h)]
    simp

/-- C4: with an unchanged set of enabled sources and deterministic fetch
results, running a second ingestion pass immediately after a first one
inserts exactly zero new articles: the second `scrape_all` returns count 0
and leaves the article store exactly as the first pass left it. -/
theorem C4_second_pass_inserts_nothing :
    ∀ (net : Net) (urljoin : String → String → String) (keywords : List String)
      (now now2 : Nat) (sources : List Source) (s : List Article),
      scrape_all net urljoin keywords now2 sources
          (scrape_all net urljoin keywords now sources s).1 =
        ((scrape_all net urljoin keywords now sources s).1, 0) := by
  intro net urljoin keywords now now2 sources s
  simp only [scrape_all]
  apply scrape_list_of_blocked
  intro src hmem it hit
  exact blocked_scrape_list net urljoin keywords now s
    (sources.filter (fun src => src.enabled)) src hmem it hit

/-- C6: for a feed whose document parses to K entries, `parse_rss` produces
exactly min(K, 60) candidates (hence at most that many), taken in order from
the front of the entry list: the i-th candidate carries the i-th entry's
title and link, and when that entry's publication timestamp is absent, or
present but its conversion to a datetime raises, the candidate is still
emitted, with `published` absent — a single bad timestamp never fails the
whole fetch. -/
theorem C6_parse_rss_cap :
    ∀ (feed : Feed),
      (parse_rss feed).length = min (feed.entries.getD []).length 60 ∧
      ∀ (i : Nat) (h : i < (parse_rss feed).length)
        (h2 : i < (feed.entries.getD []).length),
        ((parse_rss feed).get ⟨i, h⟩).title =
          ((feed.entries.getD []).get ⟨i, h2⟩).title ∧
        ((parse_rss feed).get ⟨i, h⟩).url =
          ((feed.entries.getD []).get ⟨i, h2⟩).link ∧
        (((feed.entries.getD []).get ⟨i, h2⟩).published_parsed = none →
          ((parse_rss feed).get ⟨i, h⟩).published = none) ∧
        (∀ t, ((feed.entries.getD []).get ⟨i, h2⟩).published_parsed = some t →
          t.dt? = none → ((parse_rss feed).get ⟨i, h⟩).published = none) := by
  intro feed
  constructor
  · simp [parse_rss, Nat.min_comm]
  · intro i h h2
    have hi : (parse_rss feed).get ⟨i, h⟩ =
        (fun e : Entry =>
          ({ title := e.title
             url := e.link
             summary := some (pyOrS (orEmpty e.summary) (pyOrS (orEmpty e.description) ""))
             published :=
               match e.published_parsed with
               | none => none
               | some t => t.dt? } : RawItem))
          ((feed.entries.getD []).get ⟨i, h2⟩) := by
      simp [parse_rss, List.get_eq_getElem, List.getElem_map, List.getElem_take]
    rw [hi]
    refine ⟨rfl, rfl, ?_, ?_⟩
    · intro hnone
      simp only [hnone]
    · intro t hsome hdt
      simp only [hsome, hdt]

def entW1 : Entry :=
  { title := some "Russia a"
    link := some "https://f.test/1"
    published_parsed := some { dt? := some 100 } }

def entW2 : Entry :=
  { title := some "Russia b"
    link := some "https://f.test/2"
    published_parsed := some { dt? := none } }

/-- A concrete two-entry feed whose second entry has a timestamp whose
conversion raises. -/
def feedW : Feed := { entries := some [entW1, entW2] }

/-- Witness for C6: on the two-entry feed, the count is min(2, 60) and the
bad-timestamp entry is still emitted with `published = none`. -/
theorem C6_parse_rss_cap_witness :
    (parse_rss feedW).length = min (feedW.entries.getD []).length 60 ∧
    ((parse_rss feedW).get ⟨1, by decide⟩).published = none := by
  refine ⟨(C6_parse_rss_cap feedW).1, ?_⟩
  exact ((C6_parse_rss_cap feedW).2 1 (by decide) (by decide)).2.2.2
    { dt? := none } (by decide) rfl

/-- The keyword test applied to a hyperlink by `extract_links_with_keywords`
(src line 119): some configured keyword occurs in the lowercased
"text href" combination, the href resolved against the page base url. -/
def linkMatches (urljoin : String → String → String) (base_url : String)
    (keywords : List String) (a : Link) : Bool :=
  keywords.any fun k =>
    pyContains (pyLower (pyStrip (orEmpty a.text) ++ " " ++ urljoin base_url a.href)) k

/-- The candidate dict built for a matching hyperlink (src line 120):
title is the stripped link text, or the absolute url when that text is
empty; summary is the empty string. -/
def mkLinkItem (urljoin : String → String → String) (base_url : String)
    (a : Link) : RawItem :=
  { title := some (pyOrS (pyStrip (orEmpty a.text)) (urljoin base_url a.href))
    url := some (urljoin base_url a.href)
    summary := some "" }

lemma foldl_append_filter {α β : Type} (p : α → Bool) (f : α → β)
    (l : List α) (init : List β) :
    l.foldl (fun acc a => if p a then acc ++ [f a] else acc) init =
      init ++ (l.filter p).map f := by
  induction l generalizing init with
  | nil => simp
  | cons hd tl ih =>
    simp only [List.foldl_cons, List.filter_cons]
    rcases hp : p hd with _ | _
    · simp only [if_neg (by simp [hp] : ¬ p hd = true), ih]
      simp [hp]
    · simp only [if_pos hp, ih]
      simp

lemma linksFound_eq (uj : String → String → String) (b : String)
    (kw : List String) (links : List Link) :
    linksFound uj b kw links =
      (links.filter (linkMatches uj b kw)).map (mkLinkItem uj b) := by
  have h0 : linksFound uj b kw links =
      links.foldl (fun acc a =>
        if linkMatches uj b kw a then acc ++ [mkLinkItem uj b a] else acc) [] := rfl
  rw [h0, foldl_append_filter]
  simp

lemma dedupByUrl_sublist (l : List RawItem) (seen : List String) :
    (dedupByUrl l seen).Sublist l := by
  induction l generalizing seen with
  | nil => simp [dedupByUrl]
  | cons hd tl ih =>
    simp only [dedupByUrl]
    split_ifs
    · exact (ih seen).cons hd
    · exact (ih (orEmpty hd.url :: seen)).cons₂ hd

lemma dedupByUrl_first (l : List RawItem) (seen : List String) :
    ∀ c ∈ dedupByUrl l seen, orEmpty c.url ∉ seen ∧
      ∃ pre suf, l = pre ++ c :: suf ∧
        ∀ p ∈ pre, orEmpty p.url ≠ orEmpty c.url := by
  induction l generalizing seen with
  | nil =>
    intro c h
    exact absurd h (List.not_mem_nil c)
  | cons hd tl ih =>
    intro c hc
    simp only [dedupByUrl] at hc
    split_ifs at hc with hseen
    · rcases ih seen c hc with ⟨hnot, pre, suf, hsplit, hpre⟩
      refine ⟨hnot, hd :: pre, suf, by rw [hsplit, List.cons_append], ?_⟩
      intro p hp
      rcases List.mem_cons.mp hp with rfl | hp
      · intro he
        rw [← he] at hnot
        exact hnot (by simpa using hseen)
      · exact hpre p hp
    · rcases List.mem_cons.mp hc with rfl | hc
      · refine ⟨by simpa using hseen, [], tl, rfl, ?_⟩
        intro p hp
        exact absurd hp (List.not_mem_nil p)
      · rcases ih (orEmpty hd.url :: seen) c hc with ⟨hnot, pre, suf, hsplit, hpre⟩
        have hne : orEmpty c.url ≠ orEmpty hd.url := fun he =>
          hnot (by rw [he]; exact List.mem_cons_self _ _)
        refine ⟨fun hmem => hnot (List.mem_cons_of_mem _ hmem),
          hd :: pre, suf, by rw [hsplit, List.cons_append], ?_⟩
        intro p hp
        rcases List.mem_cons.mp hp with rfl | hp
        · exact fun he => hne he.symm
        · exact hpre p hp

lemma dedupByUrl_nodup (l : List RawItem) (seen : List String) :
    ((dedupByUrl l seen).map fun c => orEmpty c.url).Nodup := by
  induction l generalizing seen with
  | nil => simp [dedupByUrl]
  | cons hd tl ih =>
    simp only [dedupByUrl]
    split_ifs with hseen
    · exact ih seen
    · rw [List.map_cons, List.nodup_cons]
      refine ⟨?_, ih (orEmpty hd.url :: seen)⟩
      intro hmem
      rcases List.mem_map.mp hmem with ⟨c, hc, he⟩
      have := (dedupByUrl_first tl (orEmpty hd.url :: seen) c hc).1
      rw [he] at this
      exact this (List.mem_cons_self _ _)

lemma dedupByUrl_mem_urls (l : List RawItem) (seen : List String) (u : String) :
    (∃ c ∈ l, orEmpty c.url = u) → u ∉ seen →
      ∃ c ∈ dedupByUrl l seen, orEmpty c.url = u := by
  induction l generalizing seen with
  | nil =>
    rintro ⟨c, hc, -⟩ -
    exact absurd hc (List.not_mem_nil c)
  | cons hd tl ih =>
    rintro ⟨c, hc, hcu⟩ hu
    simp only [dedupByUrl]
    split_ifs with hseen
    · rcases List.mem_cons.mp hc with rfl | hc
      · exact absurd (hcu ▸ (by simpa using hseen)) hu
      · exact ih seen ⟨c, hc, hcu⟩ hu
    · rcases List.mem_cons.mp hc with rfl | hc
      · exact ⟨c, List.mem_cons_self _ _, hcu⟩
      · by_cases he : orEmpty hd.url = u
        · exact ⟨hd, List.mem_cons_self _ _, he⟩
        · rcases ih (orEmpty hd.url :: seen) ⟨c, hc, hcu⟩ (by
            intro hmem
            rcases List.mem_cons.mp hmem with h2 | h2
            · exact he h2.symm
            · exact hu h2) with ⟨c2, hc2, hcu2⟩
          exact ⟨c2, List.mem_cons_of_mem hd hc2, hcu2⟩

/-- C7: the HTML link-extraction fetcher emits a candidate for a hyperlink
only if the lowercased combination of its stripped text and resolved url
contains a configured keyword (a non-matching link is never emitted), and
every matching link is represented in the output whenever the pre-dedup list
fits under the cap; each emitted candidate's title is the link text or, when
that text is empty, the absolute url, its summary is empty; the output is
deduplicated by url keeping the first occurrence in document order, and
capped at 80 items. -/
theorem C7_extract_links :
    ∀ (urljoin : String → String → String) (links : List Link)
      (base_url : String) (keywords : List String),
      (∀ c ∈ extract_links_with_keywords urljoin links base_url keywords,
        ∃ a ∈ links, linkMatches urljoin base_url keywords a = true ∧
          c.title = some (pyOrS (pyStrip (orEmpty a.text)) (urljoin base_url a.href)) ∧
          c.url = some (urljoin base_url a.href) ∧
          c.summary = some "") ∧
      (extract_links_with_keywords urljoin links base_url keywords).length ≤ 80 ∧
      ((extract_links_with_keywords urljoin links base_url keywords).map
        fun c => orEmpty c.url).Nodup ∧
      (∀ c ∈ extract_links_with_keywords urljoin links base_url keywords,
        ∃ pre suf, linksFound urljoin base_url keywords links = pre ++ c :: suf ∧
          ∀ p ∈ pre, orEmpty p.url ≠ orEmpty c.url) ∧
      ((linksFound urljoin base_url keywords links).length ≤ 80 →
        ∀ a ∈ links, linkMatches urljoin base_url keywords a = true →
          ∃ c ∈ extract_links_with_keywords urljoin links base_url keywords,
            c.url = some (urljoin base_url a.href)) := by
  intro uj links b kw
  have hmem_found : ∀ c ∈ extract_links_with_keywords uj links b kw,
      c ∈ linksFound uj b kw links := by
    intro c hc
    have h1 : c ∈ dedupByUrl (linksFound uj b kw links) [] :=
      (List.take_sublist 80 _).mem hc
    exact (dedupByUrl_sublist _ []).mem h1
  refine ⟨?_, ?_, ?_, ?_, ?_⟩
  · intro c hc
    have h2 := hmem_found c hc
    rw [linksFound_eq] at h2
    rcases List.mem_map.mp h2 with ⟨a, ha, rfl⟩
    exact ⟨a, (List.mem_filter.mp ha).1, (List.mem_filter.mp ha).2, rfl, rfl, rfl⟩
  · exact List.length_take_le 80 _
  · exact ((List.take_sublist 80 _).map _).nodup (dedupByUrl_nodup _ [])
  · intro c hc
    have h1 : c ∈ dedupByUrl (linksFound uj b kw links) [] :=
      (List.take_sublist 80 _).mem hc
    exact (dedupByUrl_first _ [] c h1).2
  · intro hlen a ha hmatch
    have hfound : ∃ c ∈ linksFound uj b kw links,
        orEmpty c.url = uj b a.href := by
      refine ⟨mkLinkItem uj b a, ?_, rfl⟩
      rw [linksFound_eq]
      exact List.mem_map_of_mem _ (List.mem_filter.mpr ⟨ha, hmatch⟩)
    rcases dedupByUrl_mem_urls _ [] _ hfound (List.not_mem_nil _) with ⟨c, hc, hcu⟩
    have hdlen : (dedupByUrl (linksFound uj b kw links) []).length ≤ 80 :=
      le_trans (dedupByUrl_sublist _ []).length_le hlen
    have htake : (dedupByUrl (linksFound uj b kw links) []).take 80 =
        dedupByUrl (linksFound uj b kw links) [] :=
      List.take_of_length_le hdlen
    have hcmem : c ∈ extract_links_with_keywords uj links b kw := by
      unfold extract_links_with_keywords
      rw [htake]
      exact hc
    -- c came from the found list, so its url field is a `some`
    have h2 := hmem_found c hcmem
    rw [linksFound_eq] at h2
    rcases List.mem_map.mp h2 with ⟨a2, ha2, rfl⟩
    refine ⟨mkLinkItem uj b a2, hcmem, ?_⟩
    simp only [mkLinkItem, orEmpty, Option.getD] at hcu ⊢
    rw [hcu]

/-- Witness for C7: a concrete page with a matching link, a non-matching
link and a repeated url. -/
theorem C7_extract_links_witness :
    (linksFound (fun _ h => h) "b" ["russia"]
        [{ text := some "Russia today", href := "https://r.test/1" },
         { text := some "Bakery", href := "https://b.test/2" },
         { text := some "More Russia", href := "https://r.test/1" }]).length ≤ 80 ∧
    ∃ c ∈ extract_links_with_keywords (fun _ h => h)
        [{ text := some "Russia today", href := "https://r.test/1" },
         { text := some "Bakery", href := "https://b.test/2" },
         { text := some "More Russia", href := "https://r.test/1" }] "b" ["russia"],
      c.url = some "https://r.test/1" := by
  refine ⟨by decide, ?_⟩
  exact (C7_extract_links (fun _ h => h)
      [{ text := some "Russia today", href := "https://r.test/1" },
       { text := some "Bakery", href := "https://b.test/2" },
       { text := some "More Russia", href := "https://r.test/1" }] "b" ["russia"]).2.2.2.2
    (by decide) { text := some "Russia today", href := "https://r.test/1" }
    (by decide) (by decide)

lemma store_items_new_rows (k : List String) (sn : String) (now : Nat)
    (s : List Article) (l : List RawItem) :
    ∀ art ∈ (store_items k sn now s l).1,
      art ∈ s ∨ ∃ it ∈ l, art = mkArticle sn now it := by
  induction l generalizing s with
  | nil =>
    intro art h
    simp only [store_items] at h
    exact Or.inl h
  | cons hd tl ih =>
    intro art h
    simp only [store_items] at h
    rcases ih ((upsertOne k sn now s hd).1) art h with h2 | ⟨it, hit, rfl⟩
    · rcases upsertOne_skip_or_insert k sn now s hd with h3 | ⟨h3, -⟩
      · rw [h3] at h2
        exact Or.inl h2
      · rw [h3] at h2
        rcases List.mem_append.mp h2 with h4 | h4
        · exact Or.inl h4
        · exact Or.inr ⟨hd, List.mem_cons_self _ _, (List.mem_singleton.mp h4)⟩
    · exact Or.inr ⟨it, List.mem_cons_of_mem hd hit, rfl⟩

/-- C10: every candidate emitted by the HTML link-extraction fetcher carries
the empty-string summary, so any article newly inserted by `store_items`
from such candidates is stored with an empty summary. -/
theorem C10_html_summary_empty :
    ∀ (urljoin : String → String → String) (links : List Link)
      (base_url : String) (keywords : List String) (source_name : String)
      (now : Nat) (s : List Article),
      (∀ c ∈ extract_links_with_keywords urljoin links base_url keywords,
        c.summary = some "") ∧
      (∀ art ∈ (store_items keywords source_name now s
            (extract_links_with_keywords urljoin links base_url keywords)).1,
        art ∈ s ∨ art.summary = "") := by
  intro uj links b kw sn now s
  have hsum : ∀ c ∈ extract_links_with_keywords uj links b kw,
      c.summary = some "" := by
    intro c hc
    have h1 : c ∈ dedupByUrl (linksFound uj b kw links) [] :=
      (List.take_sublist 80 _).mem hc
    have h2 : c ∈ linksFound uj b kw links := (dedupByUrl_sublist _ []).mem h1
    rw [linksFound_eq] at h2
    rcases List.mem_map.mp h2 with ⟨a, -, rfl⟩
    rfl
  refine ⟨hsum, ?_⟩
  intro art hart
  rcases store_items_new_rows kw sn now s _ art hart with h | ⟨it, hit, rfl⟩
  · exact Or.inl h
  · refine Or.inr ?_
    have := hsum it hit
    simp only [mkArticle, this, orEmpty, Option.getD]
    rfl

/-- Witness for C10: the stored article arising from a concrete matching
link has the empty summary. -/
theorem C10_html_summary_empty_witness :
    (mkArticle "Src" 0
        { title := some "Russia today", url := some "https://r.test/1", summary := some "" } ∈
        ([] : List Article) ∨
      (mkArticle "Src" 0
        { title := some "Russia today", url := some "https://r.test/1", summary := some "" }).summary = "") := by
  exact (C10_html_summary_empty (fun _ h => h)
      [{ text := some "Russia today", href := "https://r.test/1" }] "b" ["russia"] "Src" 0 []).2
    (mkArticle "Src" 0
      { title := some "Russia today", url := some "https://r.test/1", summary := some "" })
    (by decide)

/-- C8: listing recent articles orders rows by published timestamp
descending with rows lacking a timestamp last, ties broken by fetched_at
descending; the fixed display limit of 300 is taken from storage first and
the optional case-insensitive query filter over title or summary is applied
only to that already-limited window — so a matching row outside the top-300
window is never returned — and over three articles with published
[absent, T2, T1] (T2 > T1) and no query the order is the T2 article, the
T1 article, then the null-published article last. -/
theorem C8_index_ordering :
    (∀ (q : String) (s : List Article), (index_rows q s).Pairwise rowLeP) ∧
    (∀ (q : String) (s : List Article), ∀ r ∈ index_rows q s,
      r ∈ (List.insertionSort rowLeP s).take 300) ∧
    (∀ (q : String) (s : List Article), ∀ r ∈ index_rows q s,
      r ∈ index_rows "" s) ∧
    (∀ (b0 b2 b1 : Article) (T1 T2 : Nat), T1 < T2 →
      b0.published = none → b2.published = some T2 → b1.published = some T1 →
      index_rows "" [b0, b2, b1] = [b2, b1, b0]) := by
  have hwin : ∀ (q : String) (s : List Article),
      (index_rows q s).Sublist ((List.insertionSort rowLeP s).take 300) := by
    intro q s
    simp only [index_rows]
    split_ifs
    · exact List.filter_sublist _
    · exact List.Sublist.refl _
  have hnoq : ∀ s : List Article,
      index_rows "" s = (List.insertionSort rowLeP s).take 300 := by
    intro s
    simp only [index_rows]
    rw [if_neg (by decide)]
  refine ⟨?_, ?_, ?_, ?_⟩
  · intro q s
    exact List.Pairwise.sublist ((hwin q s).trans (List.take_sublist 300 _))
      (List.sorted_insertionSort rowLeP s)
  · intro q s r hr
    exact (hwin q s).mem hr
  · intro q s r hr
    rw [hnoq]
    exact (hwin q s).mem hr
  · intro b0 b2 b1 T1 T2 hT h0 h2 h1
    have h21 : rowLeP b2 b1 := by
      simp only [rowLeP, rowLe, h2, h1]
      rw [if_neg (by omega)]
      simpa [Nat.blt_eq] using hT
    have h02 : ¬ rowLeP b0 b2 := by
      simp [rowLeP, rowLe, h0, h2]
    have h01 : ¬ rowLeP b0 b1 := by
      simp [rowLeP, rowLe, h0, h1]
    rw [hnoq]
    have hsort : List.insertionSort rowLeP [b0, b2, b1] = [b2, b1, b0] := by
      simp [List.insertionSort, List.orderedInsert, h21, h02, h01]
    rw [hsort]
    exact List.take_of_length_le (by simp)

def artT2 : Article :=
  { source := "s"
    title := "T2 article"
    url := "u2"
    summary := ""
    published := some 20
    fetched_at := 1 }

def artT1 : Article :=
  { source := "s"
    title := "T1 article"
    url := "u1"
    summary := ""
    published := some 10
    fetched_at := 9 }

def artN : Article :=
  { source := "s"
    title := "no timestamp"
    url := "u0"
    summary := ""
    published := none
    fetched_at := 5 }

/-- Witness for C8: the three-article example at T1 = 10, T2 = 20. -/
theorem C8_index_ordering_witness :
    index_rows "" [artN, artT2, artT1] = [artT2, artT1, artN] := by
  exact C8_index_ordering.2.2.2 artN artT2 artT1 10 20 (by omega) rfl rfl rfl

lemma collectParas_eq (mp : Nat) :
    ∀ (l acc : List String), acc.length < mp →
      collectParas mp acc l =
        acc ++ ((l.filter fun t => t ≠ "").take (mp - acc.length)) := by
  intro l
  induction l with
  | nil =>
    intro acc h
    simp [collectParas]
  | cons t rest ih =>
    intro acc hacc
    simp only [collectParas, List.filter_cons]
    by_cases ht : t = ""
    · have hne : ¬ (t ≠ "") := by simpa using ht
      simp only [if_neg hne]
      rw [if_neg (show ¬ mp ≤ acc.length by omega)]
      rw [ih acc hacc]
      simp [ht]
    · simp only [if_pos ht]
      by_cases hle : mp ≤ (acc ++ [t]).length
      · rw [if_pos hle]
        have hmp : mp - acc.length = 1 := by
          simp only [List.length_append, List.length_singleton] at hle
          omega
        simp [ht, hmp]
      · rw [if_neg hle]
        rw [ih (acc ++ [t]) (by
          simp only [List.length_append, List.length_singleton] at hle ⊢
          omega)]
        have hmp : mp - acc.length = (mp - (acc ++ [t]).length) + 1 := by
          simp only [List.length_append, List.length_singleton] at hle ⊢
          omega
        simp [ht, hmp, List.take_succ_cons, List.append_assoc]

/-- `fetch_full_text_and_summary` on a successfully fetched page, with the
`or` fallbacks written via `Option.getD` / `Option.or` (equal by cases). -/
lemma fetch_full_ok_eq (pg : Page) (mp : Nat) :
    fetch_full_text_and_summary (Except.ok pg) mp =
      (let parasA :=
        match pg.articleEl with
        | some ar => collectParas mp [] ar.paras
        | none => []
      let paras :=
        if parasA.isEmpty then
          collectParas mp [] (pg.mainEl.getD pg.whole).paras
        else parasA
      let s1 := pyStrip (joinBlank paras)
      let s2 :=
        if s1 = "" then
          match pg.metaDescription.or pg.metaOgDescription with
          | some d =>
            match d.content with
            | some c => if c ≠ "" then pyStrip c else s1
            | none => s1
          | none => s1
        else s1
      if s2 = "" then none else some s2) := by
  rcases pg with ⟨ae, me, wh, md, mo⟩
  cases me <;> cases md <;> rfl

/-- `fetch_full_text_and_summary` on a page whose `<article>` region yields
no non-empty paragraph (or is absent): fall back to the `<main>` region, or
the whole document when there is none. -/
lemma fetch_full_no_paras (pg : Page) (mp : Nat)
    (hpA : (match pg.articleEl with
      | some ar => collectParas mp [] ar.paras
      | none => []) = ([] : List String)) :
    fetch_full_text_and_summary (Except.ok pg) mp =
      (let paras := collectParas mp [] (pg.mainEl.getD pg.whole).paras
       let s1 := pyStrip (joinBlank paras)
       let s2 :=
         if s1 = "" then
           match pg.metaDescription.or pg.metaOgDescription with
           | some d =>
             match d.content with
             | some c => if c ≠ "" then pyStrip c else s1
             | none => s1
           | none => s1
         else s1
       if s2 = "" then none else some s2) := by
  rw [fetch_full_ok_eq]
  rw [hpA]
  rfl

/-- C9: the enricher returns the first up-to-N non-empty paragraph texts of
the page joined with blank lines, with N defaulting to 3 and set to 4 by the
single-article deep-fetch action; paragraphs are taken from the `<article>`
region first, falling back to the `<main>` region and then to the whole
document; with no usable paragraph it returns the meta-description's
(stripped) value; it returns none when nothing usable is found or the fetch
raises; and the deep-fetch action overwrites only summary and fetched_at on
success and leaves the row unchanged on failure. -/
theorem C9_full_text_enrichment :
    (∀ page : Except String Page,
      fetch_full_text_and_summary page = fetch_full_text_and_summary page 3) ∧
    (∀ (e : String) (mp : Nat),
      fetch_full_text_and_summary (Except.error e) mp = none) ∧
    (∀ (pg : Page) (mp : Nat) (ar : Region), 1 ≤ mp →
      pg.articleEl = some ar →
      (ar.paras.filter fun t => t ≠ "").take mp ≠ [] →
      pyStrip (joinBlank ((ar.paras.filter fun t => t ≠ "").take mp)) ≠ "" →
      fetch_full_text_and_summary (Except.ok pg) mp =
        some (pyStrip (joinBlank ((ar.paras.filter fun t => t ≠ "").take mp)))) ∧
    (∀ (pg : Page) (mp : Nat), 1 ≤ mp →
      (∀ ar, pg.articleEl = some ar →
        (ar.paras.filter fun t => t ≠ "").take mp = []) →
      ((pg.mainEl.getD pg.whole).paras.filter fun t => t ≠ "").take mp ≠ [] →
      pyStrip (joinBlank (((pg.mainEl.getD pg.whole).paras.filter fun t => t ≠ "").take mp)) ≠ "" →
      fetch_full_text_and_summary (Except.ok pg) mp =
        some (pyStrip (joinBlank (((pg.mainEl.getD pg.whole).paras.filter fun t => t ≠ "").take mp)))) ∧
    (∀ (pg : Page) (mp : Nat) (d : MetaTag) (c : String), 1 ≤ mp →
      (∀ ar, pg.articleEl = some ar →
        (ar.paras.filter fun t => t ≠ "").take mp = []) →
      ((pg.mainEl.getD pg.whole).paras.filter fun t => t ≠ "").take mp = [] →
      pg.metaDescription.or pg.metaOgDescription = some d →
      d.content = some c → pyStrip c ≠ "" →
      fetch_full_text_and_summary (Except.ok pg) mp = some (pyStrip c)) ∧
    (∀ (pg : Page) (mp : Nat), 1 ≤ mp →
      (∀ ar, pg.articleEl = some ar →
        (ar.paras.filter fun t => t ≠ "").take mp = []) →
      ((pg.mainEl.getD pg.whole).paras.filter fun t => t ≠ "").take mp = [] →
      (∀ d, pg.metaDescription.or pg.metaOgDescription = some d →
        ∀ c, d.content = some c → pyStrip c = "") →
      fetch_full_text_and_summary (Except.ok pg) mp = none) ∧
    (∀ (page : Except String Page) (now : Nat) (art : Article),
      (fetch_full_text_and_summary page 4 = none →
        article_fetch_full page now art = art) ∧
      (∀ sm, fetch_full_text_and_summary page 4 = some sm →
        (article_fetch_full page now art).summary = sm ∧
        (article_fetch_full page now art).fetched_at = now ∧
        (article_fetch_full page now art).url = art.url ∧
        (article_fetch_full page now art).title = art.title ∧
        (article_fetch_full page now art).source = art.source ∧
        (article_fetch_full page now art).published = art.published)) := by
  have hrfl0 : pyStrip (joinBlank ([] : List String)) = "" := rfl
  have hcoll : ∀ (mp : Nat) (l : List String), 1 ≤ mp →
      collectParas mp [] l = (l.filter fun t => t ≠ "").take mp := by
    intro mp l hmp
    have := collectParas_eq mp l [] (by simp only [List.length_nil]; omega)
    simpa using this
  have hpA_of : ∀ (pg : Page) (mp : Nat), 1 ≤ mp →
      (∀ ar, pg.articleEl = some ar →
        (ar.paras.filter fun t => t ≠ "").take mp = []) →
      (match pg.articleEl with
        | some ar => collectParas mp [] ar.paras
        | none => []) = ([] : List String) := by
    intro pg mp hmp hA
    rcases hae : pg.articleEl with _ | ar
    · rfl
    · show collectParas mp [] ar.paras = ([] : List String)
      rw [hcoll mp ar.paras hmp]
      exact hA ar hae
  refine ⟨fun page => rfl, fun e mp => rfl, ?_, ?_, ?_, ?_, ?_⟩
  · -- paragraphs from the article region
    intro pg mp ar hmp hae hCne hSne
    have hne : (((ar.paras.filter fun t => t ≠ "").take mp).isEmpty) = false := by
      rcases hl : (ar.paras.filter fun t => t ≠ "").take mp with _ | ⟨a, l⟩
      · exact absurd hl hCne
      · rfl
    rw [fetch_full_ok_eq]
    simp only [hae]
    rw [hcoll mp ar.paras hmp]
    rw [hne]
    simp only [Bool.false_eq_true, if_false]
    simp only [if_neg hSne]
  · -- fallback to main (or the whole document)
    intro pg mp hmp hA hCne hSne
    rw [fetch_full_no_paras pg mp (hpA_of pg mp hmp hA)]
    rw [hcoll mp (pg.mainEl.getD pg.whole).paras hmp]
    simp only [if_neg hSne]
  · -- meta-description fallback
    intro pg mp d c hmp hA hM hdesc hcont hstrip
    have hpM : collectParas mp [] (pg.mainEl.getD pg.whole).paras = [] := by
      rw [hcoll mp (pg.mainEl.getD pg.whole).paras hmp]
      exact hM
    rw [fetch_full_no_paras pg mp (hpA_of pg mp hmp hA)]
    simp only [hpM, hrfl0, if_true]
    simp only [hdesc, hcont]
    have hcne : c ≠ "" := by
      intro h
      rw [h] at hstrip
      exact hstrip rfl
    rw [if_pos hcne]
    rw [if_neg hstrip]
  · -- nothing usable: none
    intro pg mp hmp hA hM hmeta
    have hpM : collectParas mp [] (pg.mainEl.getD pg.whole).paras = [] := by
      rw [hcoll mp (pg.mainEl.getD pg.whole).paras hmp]
      exact hM
    rw [fetch_full_no_paras pg mp (hpA_of pg mp hmp hA)]
    simp only [hpM, hrfl0, if_true]
    rcases hdesc : pg.metaDescription.or pg.metaOgDescription with _ | d
    · simp [hdesc]
    · simp only [hdesc]
      rcases hc : d.content with _ | c
      · simp [hc]
      · simp only [hc]
        by_cases hcne : c = ""
        · simp [hcne]
        · rw [if_pos hcne]
          rw [if_pos (hmeta d hdesc c hc)]
  · -- the deep-fetch action
    intro page now art
    constructor
    · intro h
      simp [article_fetch_full, h]
    · intro sm h
      simp [article_fetch_full, h]

/-- A page with zero paragraph tags but a meta-description. -/
def pgMeta : Page :=
  { articleEl := none
    mainEl := none
    whole := { paras := [] }
    metaDescription := some { content := some "A description" }
    metaOgDescription := none }

/-- Witness for C9: on a page with zero paragraph tags and a valid
meta-description, the enricher returns that description's text. -/
theorem C9_full_text_enrichment_witness :
    fetch_full_text_and_summary (Except.ok pgMeta) 3 =
      some (pyStrip "A description") := by
  exact C9_full_text_enrichment.2.2.2.2.1 pgMeta 3
    { content := some "A description" } "A description" (by omega)
    (fun ar har => by simp [pgMeta] at har) (by decide) rfl rfl (by decide)

end Geo
